import Mathlib

/-!
# Verification of the Rustfuck interpreter (`src/main.rs`)

A shallow embedding of the tokenizer (`lex`), the loop resolver
(`seek_closing`) and the executor (`parse`) of the Rustfuck Brainfuck
interpreter, together with theorems settling the specification claims.

Modelling notes, stated once here and referenced from the definitions:

* Tape cells are `i32` in the source.  They are carried as `Int` values,
  with the debug-profile checked arithmetic modelled explicitly: a `+` or
  `-` whose result leaves `[i32Min, i32Max]` aborts with an
  arithmetic-overflow panic (`PanicKind.addOverflow` /
  `PanicKind.subOverflow`), so reachable tapes stay inside the `i32`
  range (cells start at 0 and input bytes are below 256).  The
  `i32 → u32` cast performed by the output instruction is modelled
  exactly, as reduction modulo `2^32`.
* The data pointer is a `usize` in the source and the program is built and
  run with the default (debug) cargo profile, in which `dp -= 1` at `dp = 0`
  aborts the process with an arithmetic-overflow panic.  This is modelled by
  the explicit `PanicKind.subOverflow` outcome.  (`dp += 1` can only
  overflow after `2^64` tokens and is modelled as plain `Nat` successor.)
* `Vec` indexing out of bounds and `Option::unwrap` on `None` abort the
  process; they are modelled by the `PanicKind.indexOutOfBounds` and
  `PanicKind.unwrapNone` outcomes, kept distinct from the `Result::Err`
  strings the source returns as typed failures.
* The executor's `loop` is modelled with explicit fuel counting loop
  iterations; `RunRes.fuelOut` is the artefact outcome of exhausting fuel
  and corresponds to the source program still running.
-/

namespace Rustfuck

/-- Token kinds, mirroring the Rust `TokenType` enum. -/
inductive TokenType where
  | Plus | Minus
  | Left | Right
  | Dot | Comma
  | Lpar | Rpar
  | Invalid
deriving DecidableEq, Repr

/-- A token: kind and zero-based position, mirroring the Rust `Token` struct. -/
structure Token where
  typ : TokenType
  pos : Nat
deriving DecidableEq, Repr

/-- Character classification performed inside `lex` (the Rust `match ch`). -/
def charType (ch : Char) : TokenType :=
  if ch = '+' then .Plus
  else if ch = '-' then .Minus
  else if ch = '<' then .Left
  else if ch = '>' then .Right
  else if ch = '.' then .Dot
  else if ch = ',' then .Comma
  else if ch = '[' then .Lpar
  else if ch = ']' then .Rpar
  else .Invalid

/-- The character a (valid) token kind stands for: the inverse of
`charType` on the eight recognised characters, used to state the
round-trip property of the tokenizer.  `Invalid` is mapped to a space,
which `charType` never produces a valid kind for. -/
def charOfType : TokenType → Char
  | .Plus => '+'
  | .Minus => '-'
  | .Left => '<'
  | .Right => '>'
  | .Dot => '.'
  | .Comma => ','
  | .Lpar => '['
  | .Rpar => ']'
  | .Invalid => ' '

/-- The loop body of the Rust `lex` function, carrying the running index
`id`.  The Rust code panics on the first `Invalid` token; the panic is
modelled as `none`. -/
def lexGo : List Char → Nat → Option (List Token)
  | [], _ => some []
  | ch :: rest, id =>
    let typ := charType ch
    if typ = TokenType.Invalid then none
    else
      match lexGo rest (id + 1) with
      | none => none
      | some ts => some (⟨typ, id⟩ :: ts)

/-- The Rust `lex` function: tokenizes a whitespace-free character
sequence, assigning consecutive positions starting at 0. -/
def lex (program : List Char) : Option (List Token) :=
  lexGo program 0

theorem charOfType_charType (ch : Char) (h : charType ch ≠ TokenType.Invalid) :
    charOfType (charType ch) = ch := by
  revert h
  unfold charType
  split_ifs with h1 h2 h3 h4 h5 h6 h7 h8 <;> intro h
  · rw [h1]; rfl
  · rw [h2]; rfl
  · rw [h3]; rfl
  · rw [h4]; rfl
  · rw [h5]; rfl
  · rw [h6]; rfl
  · rw [h7]; rfl
  · rw [h8]; rfl
  · exact absurd rfl h

theorem lexGo_valid (s : List Char) :
    ∀ id : Nat, (∀ ch ∈ s, charType ch ≠ TokenType.Invalid) →
    ∃ ts, lexGo s id = some ts ∧
      ts.map Token.typ = s.map charType ∧
      ts.map Token.pos = List.range' id s.length := by
  induction s with
  | nil => intro id _; exact ⟨[], rfl, rfl, rfl⟩
  | cons ch rest ih =>
    intro id h
    have hch : charType ch ≠ TokenType.Invalid := h ch (List.mem_cons_self ch rest)
    obtain ⟨ts, hts, htyp, hpos⟩ :=
      ih (id + 1) (fun c hc => h c (List.mem_cons_of_mem ch hc))
    refine ⟨⟨charType ch, id⟩ :: ts, ?_, ?_, ?_⟩
    · simp only [lexGo, if_neg hch, hts]
    · simp [htyp]
    · simp [hpos, List.range'_succ]

/-- C8: tokenizing a sequence of the eight valid characters succeeds,
produces one token per character with positions equal to the character
indices in order, and mapping each token kind back to its character
recovers the original sequence. -/
theorem lex_roundtrip (s : List Char)
    (h : ∀ ch ∈ s, charType ch ≠ TokenType.Invalid) :
    ∃ ts, lex s = some ts ∧ ts.length = s.length ∧
      ts.map Token.pos = List.range s.length ∧
      ts.map (fun t => charOfType t.typ) = s := by
  obtain ⟨ts, hts, htyp, hpos⟩ := lexGo_valid s 0 h
  refine ⟨ts, hts, ?_, ?_, ?_⟩
  · have := congrArg List.length htyp
    simpa using this
  · rw [hpos, List.range_eq_range']
  · have : ts.map (fun t => charOfType t.typ)
        = (ts.map Token.typ).map charOfType := by
      simp [List.map_map]
    rw [this, htyp, List.map_map]
    calc s.map (charOfType ∘ charType)
        = s.map id := List.map_congr_left (fun ch hch => charOfType_charType ch (h ch hch))
      _ = s := List.map_id s

/-- Witness for C8 at the concrete input containing each valid character once. -/
theorem lex_roundtrip_witness :
    ∃ ts, lex ['+', '-', '<', '>', '.', ',', '[', ']'] = some ts ∧
      ts.length = 8 ∧
      ts.map Token.pos = List.range 8 ∧
      ts.map (fun t => charOfType t.typ) = ['+', '-', '<', '>', '.', ',', '[', ']'] :=
  lex_roundtrip ['+', '-', '<', '>', '.', ',', '[', ']'] (by decide)

/-- The error string produced by `seek_closing` on a nested loop start;
the Rust source formats `t.pos + 1`, so the argument here is the value
placed in the message, not necessarily a token position. -/
def nestedLoopsMsg (p : Nat) : String :=
  "Nested loops are not allowed. Position: " ++ toString p

/-- The error string produced by `parse` when `seek_closing` returns the
sentinel 0 (no closing bracket found), formatting the `ip` of the `[`. -/
def unmatchedMsg (ip : Nat) : String :=
  "Closing ] not found for [ at " ++ toString ip

/-- The Rust `seek_closing` function: scans the whole token sequence in
order, skipping tokens with position `≤ start_id`; the first later `Lpar`
is a nested-loop error, the first later `Rpar` is the match, and running
off the end returns the sentinel `Ok 0`. -/
def seek_closing (start_id : Nat) : List Token → Except String Nat
  | [] => .ok 0
  | t :: rest =>
    if t.pos ≤ start_id then seek_closing start_id rest
    else if t.typ = TokenType.Lpar then .error (nestedLoopsMsg (t.pos + 1))
    else if t.typ = TokenType.Rpar then .ok t.pos
    else seek_closing start_id rest

/-- The smallest `i32` value, `-2^31`. -/
def i32Min : Int := -2147483648

/-- The largest `i32` value, `2^31 - 1`. -/
def i32Max : Int := 2147483647

/-- A Rust process abort (panic), as opposed to a returned `Err`:
`Vec` indexing out of bounds, addition or subtraction overflow in the
debug profile (`usize` for the data pointer, `i32` for the tape cells),
and `Option::unwrap` on `None` (`char::from_u32` for an invalid scalar,
or `get_byte` at end of input). -/
inductive PanicKind where
  | indexOutOfBounds (index len : Nat)
  | addOverflow
  | subOverflow
  | unwrapNone
deriving DecidableEq, Repr

/-- The executor's mutable state in `parse`: the tape, the data pointer,
the instruction pointer, the single loop-context register
(`last_opening_pos`), plus the remaining input byte stream and the
scalar values written so far (the observable I/O). -/
structure St where
  tape : List Int
  dp : Nat
  ip : Nat
  lastOpeningPos : Nat
  input : List Nat
  output : List Nat
deriving DecidableEq, Repr

/-- Outcome of one iteration of the executor loop. -/
inductive StepOut where
  | cont (st : St)
  | done (st : St)
  | fail (e : String)
  | fault (p : PanicKind)
deriving DecidableEq, Repr

/-- Outcome of running the executor with a given amount of fuel.
`ok` carries the final state (the Rust function returns `Ok(())` and
exposes the tape to the debug reporter); `err` is a returned
`Err(String)`; `panic` is a process abort; `fuelOut` means the source
program is still running after the given number of loop iterations. -/
inductive RunRes where
  | ok (st : St)
  | err (e : String)
  | panic (p : PanicKind)
  | fuelOut (st : St)
deriving DecidableEq, Repr

/-- The shared tail of a loop iteration in `parse`:
`ip += 1; if ip >= program.len() { break; }`. -/
def fallThrough (program : List Token) (st : St) : StepOut :=
  let st' := { st with ip := st.ip + 1 }
  if program.length ≤ st'.ip then .done st' else .cont st'

/-- The success condition of `char::from_u32`: code points up to
0x10FFFF that are not UTF-16 surrogates. -/
def isValidScalar (u : Nat) : Bool :=
  (u < 0xD800 || 0xDFFF < u) && u ≤ 0x10FFFF

/-- One iteration of the executor loop in the Rust `parse`: read
`program[ip]` (a panic if out of bounds), dispatch on the token kind,
then fall through unless the token jumped (`continue`), returned an
error, or panicked.  Tape cells are `i32` values carried as `Int` with
the debug-profile overflow checks explicit, and the data pointer is
`Nat`, per the modelling notes in the file header. -/
def step (program : List Token) (st : St) : StepOut :=
  match program[st.ip]? with
  | none => .fault (.indexOutOfBounds st.ip program.length)
  | some token =>
    match token.typ with
    | .Left =>
      if st.dp = 0 then .fault .subOverflow
      else fallThrough program { st with dp := st.dp - 1 }
    | .Right => fallThrough program { st with dp := st.dp + 1 }
    | .Plus =>
      match st.tape[st.dp]? with
      | none => .fault (.indexOutOfBounds st.dp st.tape.length)
      | some c =>
        if i32Min ≤ c + 1 ∧ c + 1 ≤ i32Max then
          fallThrough program { st with tape := st.tape.set st.dp (c + 1) }
        else .fault .addOverflow
    | .Minus =>
      match st.tape[st.dp]? with
      | none => .fault (.indexOutOfBounds st.dp st.tape.length)
      | some c =>
        if i32Min ≤ c - 1 ∧ c - 1 ≤ i32Max then
          fallThrough program { st with tape := st.tape.set st.dp (c - 1) }
        else .fault .subOverflow
    | .Comma =>
      match st.input with
      | [] => .fault .unwrapNone
      | b :: rest =>
        if st.dp < st.tape.length then
          fallThrough program { st with tape := st.tape.set st.dp (b : Int), input := rest }
        else .fault (.indexOutOfBounds st.dp st.tape.length)
    | .Dot =>
      match st.tape[st.dp]? with
      | none => .fault (.indexOutOfBounds st.dp st.tape.length)
      | some c =>
        let u := (c % (2 ^ 32 : Int)).toNat
        if isValidScalar u then fallThrough program { st with output := st.output ++ [u] }
        else .fault .unwrapNone
    | .Lpar =>
      let st1 := { st with lastOpeningPos := st.ip }
      match st1.tape[st1.dp]? with
      | none => .fault (.indexOutOfBounds st1.dp st1.tape.length)
      | some c =>
        if c = (0 : Int) then
          match seek_closing st1.ip program with
          | .error e => .fail e
          | .ok next =>
            if next = 0 then .fail (unmatchedMsg st1.ip)
            else .cont { st1 with ip := next + 1 }
        else fallThrough program st1
    | .Rpar =>
      match st.tape[st.dp]? with
      | none => .fault (.indexOutOfBounds st.dp st.tape.length)
      | some c =>
        if c ≠ (0 : Int) then .cont { st with ip := st.lastOpeningPos + 1 }
        else fallThrough program st
    | .Invalid => fallThrough program st

/-- The executor loop of `parse`, with fuel counting loop iterations. -/
def runLoop : Nat → List Token → St → RunRes
  | 0, _, st => .fuelOut st
  | fuel + 1, program, st =>
    match step program st with
    | .cont st' => runLoop fuel program st'
    | .done st' => .ok st'
    | .fail e => .err e
    | .fault p => .panic p

/-- The initial state built at the top of `parse`:
`tape = vec![0; capacity]`, `dp = 0`, `ip = 0`, `last_opening_pos = 0`,
with a given pending input byte stream and empty output. -/
def initSt (capacity : Nat) (input : List Nat) : St :=
  { tape := List.replicate capacity 0, dp := 0, ip := 0,
    lastOpeningPos := 0, input := input, output := [] }

/-- The Rust `parse` function on a token sequence, a capacity and an
input stream, with explicit fuel. -/
def parse (fuel : Nat) (program : List Token) (capacity : Nat)
    (input : List Nat) : RunRes :=
  runLoop fuel program (initSt capacity input)

/-- Whether a token kind is one of the four bracket-free, I/O-free
arithmetic and pointer operations. -/
def isArith (ty : TokenType) : Bool :=
  match ty with
  | .Plus | .Minus | .Left | .Right => true
  | _ => false

/-- C1 (code bug): the program `"<"` executed first with `dp = 0` does
not produce a reported AddressError: the executor performs the unchecked
`usize` decrement `dp -= 1` and the process aborts with an
arithmetic-overflow panic.  No AddressError exists anywhere in the code. -/
theorem ptr_left_underflow_panics :
    lex ['<'] = some [⟨TokenType.Left, 0⟩] ∧
    parse 1 [⟨TokenType.Left, 0⟩] 100 [] = .panic PanicKind.subOverflow := by
  decide

/-- C2 (code bug): the program `"[+]"` on a fresh tape does not halt
successfully: skipping the loop sets `ip` to the matched `]` position
plus one (= 3) via `continue`, which bypasses the `ip >= program.len()`
check, and the next iteration indexes `program[3]` out of bounds, a
panic.  This happens for any capacity (shown at 1 and at the default 100). -/
theorem skip_loop_at_end_panics :
    lex ['[', '+', ']'] =
      some [⟨TokenType.Lpar, 0⟩, ⟨TokenType.Plus, 1⟩, ⟨TokenType.Rpar, 2⟩] ∧
    parse 2 [⟨TokenType.Lpar, 0⟩, ⟨TokenType.Plus, 1⟩, ⟨TokenType.Rpar, 2⟩] 1 []
      = .panic (PanicKind.indexOutOfBounds 3 3) ∧
    parse 2 [⟨TokenType.Lpar, 0⟩, ⟨TokenType.Plus, 1⟩, ⟨TokenType.Rpar, 2⟩] 100 []
      = .panic (PanicKind.indexOutOfBounds 3 3) := by
  refine ⟨by decide, by decide, by decide⟩

/-- C3 (code bug): the program `"-."` makes `Tape[dp] = -1`, not a valid
Unicode scalar value; the executor calls `char::from_u32(-1 as u32).unwrap()`
which aborts the process with an `Option::unwrap` panic carrying no value,
instead of surfacing a typed EncodingError result to the caller. -/
theorem output_invalid_scalar_panics :
    lex ['-', '.'] = some [⟨TokenType.Minus, 0⟩, ⟨TokenType.Dot, 1⟩] ∧
    parse 3 [⟨TokenType.Minus, 0⟩, ⟨TokenType.Dot, 1⟩] 100 []
      = .panic PanicKind.unwrapNone := by
  decide

/-- C9 counterexample: executing the empty token sequence does not halt
successfully; the run aborts with an out-of-bounds index panic on the
very first token read. -/
theorem empty_program_panic_counterexample :
    parse 3 [] 5 [] = .panic (PanicKind.indexOutOfBounds 0 0) := by
  decide

/-- C9 (amended): on an empty token sequence the executor reads
`program[0]` before any termination check and panics with an index
out-of-bounds fault, for every capacity, input stream and (positive)
fuel; the positional termination test runs only after a token has been
processed. -/
theorem empty_program_faults (capacity : Nat) (input : List Nat) (f : Nat) :
    runLoop (f + 1) [] (initSt capacity input) =
      .panic (PanicKind.indexOutOfBounds 0 0) := rfl

/-- Helper: from a single-cell state holding `i32Max - k`, a program of
consecutive `+` tokens drives the cell up by one per iteration and,
after `k + 1` more tokens and as much fuel, aborts with the
debug-profile add-overflow panic. -/
theorem runLoop_plus_overflow (m : Nat) :
    ∀ k : Nat, k ≤ 4294967295 → ∀ (f : Nat) (st : St),
    st.tape = [i32Max - (k : Int)] → st.dp = 0 →
    st.ip + k < m → k + 1 ≤ f →
    runLoop f (List.replicate m ⟨TokenType.Plus, 0⟩) st
      = .panic PanicKind.addOverflow := by
  intro k
  induction k with
  | zero =>
    intro _ f st htape hdp hip hf
    obtain ⟨f, rfl⟩ : ∃ g, f = g + 1 := ⟨f - 1, by omega⟩
    have hts : (List.replicate m (⟨TokenType.Plus, 0⟩ : Token))[st.ip]?
        = some ⟨TokenType.Plus, 0⟩ := by
      rw [List.getElem?_replicate, if_pos (by omega)]
    have hc : st.tape[st.dp]? = some (i32Max - ((0 : Nat) : Int)) := by
      rw [htape, hdp, List.getElem?_cons_zero]
    have hnot : ¬ (i32Min ≤ i32Max - ((0 : Nat) : Int) + 1 ∧
        i32Max - ((0 : Nat) : Int) + 1 ≤ i32Max) := by
      simp only [i32Min, i32Max]
      omega
    have hstep : step (List.replicate m ⟨TokenType.Plus, 0⟩) st
        = .fault PanicKind.addOverflow := by
      simp only [step, hts, hc, if_neg hnot]
    simp [runLoop, hstep]
  | succ k ih =>
    intro hk f st htape hdp hip hf
    obtain ⟨f, rfl⟩ : ∃ g, f = g + 1 := ⟨f - 1, by omega⟩
    have hts : (List.replicate m (⟨TokenType.Plus, 0⟩ : Token))[st.ip]?
        = some ⟨TokenType.Plus, 0⟩ := by
      rw [List.getElem?_replicate, if_pos (by omega)]
    have hc : st.tape[st.dp]? = some (i32Max - ((k + 1 : Nat) : Int)) := by
      rw [htape, hdp, List.getElem?_cons_zero]
    have hyes : i32Min ≤ i32Max - ((k + 1 : Nat) : Int) + 1 ∧
        i32Max - ((k + 1 : Nat) : Int) + 1 ≤ i32Max := by
      simp only [i32Min, i32Max]
      omega
    have hstep : step (List.replicate m ⟨TokenType.Plus, 0⟩) st
        = fallThrough (List.replicate m ⟨TokenType.Plus, 0⟩)
          { st with tape := st.tape.set st.dp (i32Max - ((k + 1 : Nat) : Int) + 1) } := by
      simp only [step, hts, hc, if_pos hyes]
    have hlen2 : ¬ ((List.replicate m (⟨TokenType.Plus, 0⟩ : Token)).length ≤ st.ip + 1) := by
      rw [List.length_replicate]
      omega
    have hcont : step (List.replicate m ⟨TokenType.Plus, 0⟩) st
        = .cont { st with tape := st.tape.set st.dp (i32Max - ((k + 1 : Nat) : Int) + 1), ip := st.ip + 1 } := by
      rw [hstep]
      simp only [fallThrough, if_neg hlen2]
    have hrec : runLoop (f + 1) (List.replicate m ⟨TokenType.Plus, 0⟩) st
        = runLoop f (List.replicate m ⟨TokenType.Plus, 0⟩)
          { st with tape := st.tape.set st.dp (i32Max - ((k + 1 : Nat) : Int) + 1), ip := st.ip + 1 } := by
      simp [runLoop, hcont]
    rw [hrec]
    apply ih (by omega) f
    · show st.tape.set st.dp (i32Max - ((k + 1 : Nat) : Int) + 1) = [i32Max - (k : Int)]
      rw [htape, hdp]
      have harith : i32Max - ((k + 1 : Nat) : Int) + 1 = i32Max - (k : Int) := by
        push_cast
        ring
      rw [List.set_cons_zero, harith]
    · show st.dp = 0
      exact hdp
    · show st.ip + 1 + k < m
      omega
    · omega

/-- C7 counterexample: two all-arithmetic sources on which the claim's
conclusion fails.  The empty source consists only of (vacuously)
`+`/`-`/`<`/`>` tokens and keeps `dp = 0` inside `[0, 100)` at every
step, yet execution panics reading `program[0]`.  The source of `2^31`
consecutive `+` tokens keeps `dp = 0` inside `[0, 1)` at every step,
yet execution aborts with the `i32` add-overflow panic instead of
succeeding with the unbounded arithmetic simulation. -/
theorem arith_only_simulation_counterexample :
    (([] : List Token).all (fun t => isArith t.typ) = true ∧
      parse 2 [] 100 [] = .panic (PanicKind.indexOutOfBounds 0 0)) ∧
    ((List.replicate 2147483648 (⟨TokenType.Plus, 0⟩ : Token)).all
        (fun t => isArith t.typ) = true ∧
      parse 2147483648 (List.replicate 2147483648 ⟨TokenType.Plus, 0⟩) 1 []
        = .panic PanicKind.addOverflow) := by
  refine ⟨⟨by decide, by decide⟩, ?_, ?_⟩
  · rw [List.all_eq_true]
    intro t ht
    rw [List.eq_of_mem_replicate ht]
    rfl
  · show runLoop 2147483648 (List.replicate 2147483648 ⟨TokenType.Plus, 0⟩) (initSt 1 [])
      = .panic PanicKind.addOverflow
    exact runLoop_plus_overflow 2147483648 2147483647 (by omega) 2147483648
      (initSt 1 []) (by decide) rfl (by decide) (by omega)

/-- Helper for C4: if every token before `t` is positioned at or before
`startPos` or is not a bracket, and `t` is a loop start strictly after
`startPos`, then `seek_closing` stops at `t` with the nested-loops error,
whose message holds `t.pos + 1`. -/
theorem seek_closing_first_lpar (startPos : Nat) (t : Token) (rest : List Token) :
    ∀ pre : List Token,
    (∀ u ∈ pre, u.pos ≤ startPos ∨ (u.typ ≠ TokenType.Lpar ∧ u.typ ≠ TokenType.Rpar)) →
    startPos < t.pos → t.typ = TokenType.Lpar →
    seek_closing startPos (pre ++ t :: rest) = .error (nestedLoopsMsg (t.pos + 1)) := by
  intro pre
  induction pre with
  | nil =>
    intro _ hlt htyp
    simp only [List.nil_append, seek_closing, if_neg (Nat.not_le.mpr hlt), if_pos htyp]
  | cons u pre ih =>
    intro hpre hlt htyp
    have hu := hpre u (List.mem_cons_self u pre)
    have hrest : ∀ v ∈ pre, v.pos ≤ startPos ∨ (v.typ ≠ TokenType.Lpar ∧ v.typ ≠ TokenType.Rpar) :=
      fun v hv => hpre v (List.mem_cons_of_mem u hv)
    by_cases hpos : u.pos ≤ startPos
    · simp only [List.cons_append, seek_closing, if_pos hpos]
      exact ih hrest hlt htyp
    · rcases hu with h | ⟨hl, hr⟩
      · exact absurd h hpos
      · simp only [List.cons_append, seek_closing, if_neg hpos, if_neg hl, if_neg hr]
        exact ih hrest hlt htyp

/-- C4 (amended): when the first bracket token strictly after `startPos`
is a LoopStart, the resolver fails immediately with the nested-loops
error whose reported number is that token's zero-based position plus
one (a one-based rendering); in particular the whole run of `"[[]]"`
fails with the message reporting 2 for the inner `[` at position 1. -/
theorem nested_loop_reports_succ_position :
    (∀ (startPos : Nat) (t : Token) (rest pre : List Token),
      (∀ u ∈ pre, u.pos ≤ startPos ∨ (u.typ ≠ TokenType.Lpar ∧ u.typ ≠ TokenType.Rpar)) →
      startPos < t.pos → t.typ = TokenType.Lpar →
      seek_closing startPos (pre ++ t :: rest) = .error (nestedLoopsMsg (t.pos + 1))) ∧
    (lex ['[', '[', ']', ']'] = some [⟨TokenType.Lpar, 0⟩, ⟨TokenType.Lpar, 1⟩,
        ⟨TokenType.Rpar, 2⟩, ⟨TokenType.Rpar, 3⟩] ∧
      parse 1 [⟨TokenType.Lpar, 0⟩, ⟨TokenType.Lpar, 1⟩, ⟨TokenType.Rpar, 2⟩,
        ⟨TokenType.Rpar, 3⟩] 100 [] = .err (nestedLoopsMsg 2)) := by
  constructor
  · intro startPos t rest pre hpre hlt htyp
    exact seek_closing_first_lpar startPos t rest pre hpre hlt htyp
  · constructor
    · decide
    · decide

/-- Witness for the general part of C4's amended theorem, at the tokens
of `"[[]]"` with the scan started at position 0. -/
theorem nested_loop_reports_succ_position_witness :
    seek_closing 0 ([⟨TokenType.Lpar, 0⟩] ++ ⟨TokenType.Lpar, 1⟩ ::
      [⟨TokenType.Rpar, 2⟩, ⟨TokenType.Rpar, 3⟩]) = .error (nestedLoopsMsg 2) :=
  nested_loop_reports_succ_position.1 0 ⟨TokenType.Lpar, 1⟩
    [⟨TokenType.Rpar, 2⟩, ⟨TokenType.Rpar, 3⟩] [⟨TokenType.Lpar, 0⟩]
    (by decide) (by decide) rfl

/-- C4 counterexample: the run of `"[[]]"` reports the number 2 in its
nested-loops error, which is not the zero-based position 1 of the inner
`[`: the claim that the error names that token's position is false. -/
theorem nested_loop_position_counterexample :
    parse 1 [⟨TokenType.Lpar, 0⟩, ⟨TokenType.Lpar, 1⟩, ⟨TokenType.Rpar, 2⟩,
      ⟨TokenType.Rpar, 3⟩] 100 [] = .err (nestedLoopsMsg 2) ∧
    nestedLoopsMsg 2 ≠ nestedLoopsMsg 1 := by
  constructor
  · decide
  · decide

/-- Helper for C5: a scan that meets no bracket token strictly after
`startPos` runs off the end of the sequence and returns the sentinel
`Ok 0`. -/
theorem seek_closing_no_bracket (startPos : Nat) :
    ∀ ts : List Token,
    (∀ u ∈ ts, startPos < u.pos → u.typ ≠ TokenType.Lpar ∧ u.typ ≠ TokenType.Rpar) →
    seek_closing startPos ts = .ok 0 := by
  intro ts
  induction ts with
  | nil => intro _; rfl
  | cons u rest ih =>
    intro h
    have hrest : ∀ v ∈ rest, startPos < v.pos → v.typ ≠ TokenType.Lpar ∧ v.typ ≠ TokenType.Rpar :=
      fun v hv => h v (List.mem_cons_of_mem u hv)
    by_cases hpos : u.pos ≤ startPos
    · simp only [seek_closing, if_pos hpos]
      exact ih hrest
    · obtain ⟨hl, hr⟩ := h u (List.mem_cons_self u rest) (Nat.not_le.mp hpos)
      simp only [seek_closing, if_neg hpos, if_neg hl, if_neg hr]
      exact ih hrest

/-- C5: if the executor is at a LoopStart whose cell is zero and no
bracket token occurs strictly after its position, the resolver's
sentinel `Ok 0` is turned into the unmatched-loop error and the run
aborts with it; in particular `"[+"` fails with that error at `[` = 0. -/
theorem unmatched_loop_aborts :
    (∀ (ts : List Token) (st : St) (t : Token) (f : Nat),
      ts[st.ip]? = some t → t.typ = TokenType.Lpar →
      st.tape[st.dp]? = some (0 : Int) →
      (∀ u ∈ ts, st.ip < u.pos → u.typ ≠ TokenType.Lpar ∧ u.typ ≠ TokenType.Rpar) →
      runLoop (f + 1) ts st = .err (unmatchedMsg st.ip)) ∧
    (lex ['[', '+'] = some [⟨TokenType.Lpar, 0⟩, ⟨TokenType.Plus, 1⟩] ∧
      parse 1 [⟨TokenType.Lpar, 0⟩, ⟨TokenType.Plus, 1⟩] 100 []
        = .err (unmatchedMsg 0)) := by
  constructor
  · intro ts st t f hts htyp hcell hnone
    have hseek : seek_closing st.ip ts = .ok 0 := seek_closing_no_bracket st.ip ts hnone
    have hstep : step ts st = .fail (unmatchedMsg st.ip) := by
      simp [step, hts, htyp, hcell, hseek]
    simp [runLoop, hstep]
  · exact ⟨by decide, by decide⟩

/-- Witness for the general part of C5, at the tokens of `"[+"` in the
initial state of a fresh capacity-100 tape. -/
theorem unmatched_loop_aborts_witness :
    runLoop 1 [⟨TokenType.Lpar, 0⟩, ⟨TokenType.Plus, 1⟩] (initSt 100 [])
      = .err (unmatchedMsg 0) :=
  unmatched_loop_aborts.1 [⟨TokenType.Lpar, 0⟩, ⟨TokenType.Plus, 1⟩]
    (initSt 100 []) ⟨TokenType.Lpar, 0⟩ 0 (by decide) rfl (by decide) (by decide)

/-- C6: a LoopEnd with a nonzero cell jumps to the loop-context register
value plus one (whatever LoopStart last wrote it, or its initial 0); a
LoopEnd with a zero cell falls through; and a LoopStart overwrites the
register with its own `ip` in every non-aborting outcome. -/
theorem loop_register_semantics :
    (∀ (ts : List Token) (st : St) (t : Token) (c : Int),
      ts[st.ip]? = some t → t.typ = TokenType.Rpar →
      st.tape[st.dp]? = some c → c ≠ 0 →
      step ts st = .cont { st with ip := st.lastOpeningPos + 1 }) ∧
    (∀ (ts : List Token) (st : St) (t : Token),
      ts[st.ip]? = some t → t.typ = TokenType.Rpar →
      st.tape[st.dp]? = some (0 : Int) →
      step ts st = fallThrough ts st) ∧
    (∀ (ts : List Token) (st : St) (t : Token) (st' : St),
      ts[st.ip]? = some t → t.typ = TokenType.Lpar →
      (step ts st = .cont st' ∨ step ts st = .done st') →
      st'.lastOpeningPos = st.ip) := by
  refine ⟨?_, ?_, ?_⟩
  · intro ts st t c hts htyp hcell hc
    simp only [step, hts, htyp, hcell, if_pos hc]
  · intro ts st t hts htyp hcell
    simp only [step, hts, htyp, hcell, if_neg (by simp : ¬ ((0 : Int) ≠ 0))]
  · intro ts st t st' hts htyp hstep
    rcases hcell : st.tape[st.dp]? with _ | c
    · simp only [step, hts, htyp, hcell] at hstep
      rcases hstep with h | h <;> simp at h
    · simp only [step, hts, htyp, hcell] at hstep
      by_cases hc : c = (0 : Int)
      · subst hc
        simp only [if_pos rfl] at hstep
        rcases hseek : seek_closing st.ip ts with e | next
        · simp only [hseek] at hstep
          rcases hstep with h | h <;> simp at h
        · simp only [hseek] at hstep
          by_cases hnext : next = 0
          · simp only [if_pos hnext] at hstep
            rcases hstep with h | h <;> simp at h
          · simp only [if_neg hnext] at hstep
            rcases hstep with h | h
            · injection h with h2
              rw [← h2]
            · simp at h
      · simp only [if_neg hc] at hstep
        unfold fallThrough at hstep
        by_cases hlen : ts.length ≤ st.ip + 1
        · simp only [if_pos hlen] at hstep
          rcases hstep with h | h
          · simp at h
          · injection h with h2
            rw [← h2]
        · simp only [if_neg hlen] at hstep
          rcases hstep with h | h
          · injection h with h2
            rw [← h2]
          · simp at h

/-- Witness for C6, applying the jump-back clause at a concrete LoopEnd
state whose register holds 4. -/
theorem loop_register_semantics_witness :
    step [⟨TokenType.Rpar, 0⟩] ⟨[1], 0, 0, 4, [], []⟩
      = .cont ⟨[1], 0, 5, 4, [], []⟩ :=
  loop_register_semantics.1 [⟨TokenType.Rpar, 0⟩] ⟨[1], 0, 0, 4, [], []⟩
    ⟨TokenType.Rpar, 0⟩ 1 rfl rfl rfl (by decide)

/-- The caller-observable outcome of a run: the result kind with the
final tape, data pointer and output values, but not the unread
remainder of the input byte stream. -/
inductive Obs where
  | ok (tape : List Int) (dp : Nat) (output : List Nat)
  | err (e : String)
  | panic (p : PanicKind)
  | running (tape : List Int) (dp : Nat) (output : List Nat)
deriving DecidableEq, Repr

/-- Project a run result onto what the caller observes. -/
def observe : RunRes → Obs
  | .ok st => .ok st.tape st.dp st.output
  | .err e => .err e
  | .panic p => .panic p
  | .fuelOut st => .running st.tape st.dp st.output

/-- Replace the pending-input component inside a step outcome. -/
def setInputOut (inp : List Nat) : StepOut → StepOut
  | .cont a => .cont { a with input := inp }
  | .done a => .done { a with input := inp }
  | .fail e => .fail e
  | .fault p => .fault p

theorem fallThrough_set_input (ts : List Token) (st : St) (inp : List Nat) :
    fallThrough ts { st with input := inp } = setInputOut inp (fallThrough ts st) := by
  unfold fallThrough setInputOut
  by_cases h : ts.length ≤ st.ip + 1 <;> simp [h]

theorem step_set_input (ts : List Token) (st : St) (inp : List Nat)
    (hno : ∀ t ∈ ts, t.typ ≠ TokenType.Comma) :
    step ts { st with input := inp } = setInputOut inp (step ts st) := by
  unfold step
  rcases hts : ts[st.ip]? with _ | t
  · simp [hts, setInputOut]
  · have hcm : t.typ ≠ TokenType.Comma := hno t (List.getElem?_mem hts)
    simp only [hts]
    cases hty : t.typ
    case Plus =>
      rcases hc : st.tape[st.dp]? with _ | c
      · simp [hc, setInputOut]
      · simp only [hc]
        by_cases hr : i32Min ≤ c + 1 ∧ c + 1 ≤ i32Max
        · rw [if_pos hr, if_pos hr]
          exact fallThrough_set_input ts { st with tape := st.tape.set st.dp (c + 1) } inp
        · rw [if_neg hr, if_neg hr]
          rfl
    case Minus =>
      rcases hc : st.tape[st.dp]? with _ | c
      · simp [hc, setInputOut]
      · simp only [hc]
        by_cases hr : i32Min ≤ c - 1 ∧ c - 1 ≤ i32Max
        · rw [if_pos hr, if_pos hr]
          exact fallThrough_set_input ts { st with tape := st.tape.set st.dp (c - 1) } inp
        · rw [if_neg hr, if_neg hr]
          rfl
    case Left =>
      by_cases hdp : st.dp = 0
      · simp [hdp, setInputOut]
      · simp only [if_neg hdp]
        exact fallThrough_set_input ts { st with dp := st.dp - 1 } inp
    case Right =>
      exact fallThrough_set_input ts { st with dp := st.dp + 1 } inp
    case Dot =>
      rcases hc : st.tape[st.dp]? with _ | c
      · simp [hc, setInputOut]
      · simp only [hc]
        by_cases hv : isValidScalar (c % (2 ^ 32 : Int)).toNat = true
        · rw [if_pos hv, if_pos hv]
          exact fallThrough_set_input ts
            { st with output := st.output ++ [(c % (2 ^ 32 : Int)).toNat] } inp
        · rw [if_neg hv, if_neg hv]
          rfl
    case Comma =>
      exact absurd hty hcm
    case Lpar =>
      rcases hc : st.tape[st.dp]? with _ | c
      · simp [hc, setInputOut]
      · simp only [hc]
        by_cases hz : c = (0 : Int)
        · simp only [if_pos hz]
          rcases hseek : seek_closing st.ip ts with e | nx
          · simp [hseek, setInputOut]
          · simp only [hseek]
            by_cases hn : nx = 0
            · simp [hn, setInputOut]
            · simp [hn, setInputOut]
        · simp only [if_neg hz]
          exact fallThrough_set_input ts { st with lastOpeningPos := st.ip } inp
    case Rpar =>
      rcases hc : st.tape[st.dp]? with _ | c
      · simp [hc, setInputOut]
      · simp only [hc]
        by_cases hz : c = (0 : Int)
        · have hz2 : ¬ (c ≠ (0 : Int)) := by simp [hz]
          simp only [if_neg hz2]
          exact fallThrough_set_input ts st inp
        · simp [hz, setInputOut]
    case Invalid =>
      exact fallThrough_set_input ts st inp

theorem runLoop_set_input : ∀ (f : Nat) (ts : List Token) (st : St) (inp : List Nat),
    (∀ t ∈ ts, t.typ ≠ TokenType.Comma) →
    observe (runLoop f ts { st with input := inp }) = observe (runLoop f ts st) := by
  intro f
  induction f with
  | zero => intro ts st inp _; rfl
  | succ f ih =>
    intro ts st inp hno
    have hs := step_set_input ts st inp hno
    simp only [runLoop, hs]
    rcases hstep : step ts st with a | a | e | p
    · simp only [hstep, setInputOut]
      exact ih ts a inp hno
    · simp only [hstep, setInputOut, observe]
    · simp only [hstep, setInputOut]
    · simp only [hstep, setInputOut]

/-- C10: for a token sequence containing no Input (`,`) tokens, the
executor is deterministic and independent of the input stream: two runs
with the same capacity (and fuel) have the same observable outcome —
the same success/failure result, final tape, data pointer and output. -/
theorem executor_deterministic_no_input (ts : List Token) (capacity : Nat)
    (f : Nat) (input1 input2 : List Nat)
    (hno : ∀ t ∈ ts, t.typ ≠ TokenType.Comma) :
    observe (parse f ts capacity input1) = observe (parse f ts capacity input2) := by
  have h1 : initSt capacity input1 = { initSt capacity input2 with input := input1 } := rfl
  rw [parse, parse, h1, runLoop_set_input f ts (initSt capacity input2) input1 hno]

/-- Witness for C10 at the program `"+."` with two different input
streams. -/
theorem executor_deterministic_no_input_witness :
    observe (parse 3 [⟨TokenType.Plus, 0⟩, ⟨TokenType.Dot, 1⟩] 2 [7])
      = observe (parse 3 [⟨TokenType.Plus, 0⟩, ⟨TokenType.Dot, 1⟩] 2 []) :=
  executor_deterministic_no_input [⟨TokenType.Plus, 0⟩, ⟨TokenType.Dot, 1⟩] 2 3 [7] []
    (by decide)

/-- Specification-side definition (spec section 8): the direct
arithmetic simulation of one token kind on a pair of tape and
unconstrained integer data pointer — `+`/`-` add or subtract one at the
current cell, `<`/`>` move the pointer, anything else does nothing. -/
def specStep (ty : TokenType) (s : List Int × Int) : List Int × Int :=
  match ty with
  | .Plus => (s.1.set s.2.toNat (s.1.getD s.2.toNat 0 + 1), s.2)
  | .Minus => (s.1.set s.2.toNat (s.1.getD s.2.toNat 0 - 1), s.2)
  | .Left => (s.1, s.2 - 1)
  | .Right => (s.1, s.2 + 1)
  | _ => s

/-- Specification-side definition: each operation applied in order. -/
def specRun (tys : List TokenType) (s : List Int × Int) : List Int × Int :=
  tys.foldl (fun s ty => specStep ty s) s

/-- The net pointer movement of a token-kind sequence: the number of
`>` tokens minus the number of `<` tokens. -/
def netMoves (tys : List TokenType) : Int :=
  (tys.countP (fun ty => decide (ty = TokenType.Right)) : Int) -
  (tys.countP (fun ty => decide (ty = TokenType.Left)) : Int)

theorem specRun_cons (ty : TokenType) (tys : List TokenType) (s : List Int × Int) :
    specRun (ty :: tys) s = specRun tys (specStep ty s) := rfl

theorem specStep_length (ty : TokenType) (s : List Int × Int) :
    (specStep ty s).1.length = s.1.length := by
  cases ty <;> simp [specStep]

theorem specRun_dp (tys : List TokenType) :
    ∀ s : List Int × Int, (specRun tys s).2 = s.2 + netMoves tys := by
  induction tys with
  | nil => intro s; simp [specRun, netMoves]
  | cons ty tys ih =>
    intro s
    rw [specRun_cons, ih]
    cases ty <;> simp [specStep, netMoves, List.countP_cons] <;> omega

/-- Helper: a value written by `List.set` at an in-bounds index is an
element of the resulting list. -/
theorem mem_set_self (l : List Int) (i : Nat) (a : Int) (h : i < l.length) :
    a ∈ l.set i a := by
  have h2 : i < (l.set i a).length := by simpa using h
  have h3 : (l.set i a)[i] = a := List.getElem_set_self h2
  exact List.mem_iff_getElem.mpr ⟨i, h2, h3⟩

/-- One arithmetic token behaves as one step of the spec simulation:
given the pointer bounds the claim's precondition provides, and the
simulated cells staying inside the `i32` range (so the debug-profile
overflow check passes), the executor falls through to the next token
with the simulated tape and pointer. -/
theorem step_arith_bridge (ts : List Token) (st : St) (t : Token)
    (hts : ts[st.ip]? = some t) (ha : isArith t.typ = true)
    (hdp : st.dp < st.tape.length)
    (hleft : t.typ = TokenType.Left → st.dp ≠ 0)
    (hcells : ∀ x ∈ (specStep t.typ (st.tape, (st.dp : Int))).1,
      i32Min ≤ x ∧ x ≤ i32Max) :
    ∃ tape' dp',
      step ts st = fallThrough ts { st with tape := tape', dp := dp' } ∧
      tape' = (specStep t.typ (st.tape, (st.dp : Int))).1 ∧
      (dp' : Int) = (specStep t.typ (st.tape, (st.dp : Int))).2 := by
  have hget : st.tape[st.dp]? = some st.tape[st.dp] := List.getElem?_eq_getElem hdp
  have hgetD : st.tape.getD st.dp 0 = st.tape[st.dp] := List.getD_eq_getElem st.tape 0 hdp
  cases hty : t.typ
  case Plus =>
    rw [hty] at hcells
    have hw : st.tape[st.dp] + 1 ∈ (specStep TokenType.Plus (st.tape, (st.dp : Int))).1 := by
      simp only [specStep, Int.toNat_natCast, hgetD]
      exact mem_set_self st.tape st.dp (st.tape[st.dp] + 1) hdp
    have hr := hcells _ hw
    refine ⟨st.tape.set st.dp (st.tape[st.dp] + 1), st.dp, ?_, ?_, ?_⟩
    · simp only [step, hts, hty, hget, if_pos hr]
    · simp [specStep, hget]
    · simp [specStep]
  case Minus =>
    rw [hty] at hcells
    have hw : st.tape[st.dp] - 1 ∈ (specStep TokenType.Minus (st.tape, (st.dp : Int))).1 := by
      simp only [specStep, Int.toNat_natCast, hgetD]
      exact mem_set_self st.tape st.dp (st.tape[st.dp] - 1) hdp
    have hr := hcells _ hw
    refine ⟨st.tape.set st.dp (st.tape[st.dp] - 1), st.dp, ?_, ?_, ?_⟩
    · simp only [step, hts, hty, hget, if_pos hr]
    · simp [specStep, hget]
    · simp [specStep]
  case Left =>
    have hne := hleft hty
    refine ⟨st.tape, st.dp - 1, ?_, ?_, ?_⟩
    · simp only [step, hts, hty, if_neg hne]
    · simp [specStep]
    · simp only [specStep]
      omega
  case Right =>
    refine ⟨st.tape, st.dp + 1, ?_, ?_, ?_⟩
    · simp only [step, hts, hty]
    · simp [specStep]
    · simp [specStep]
  case Dot => simp [isArith, hty] at ha
  case Comma => simp [isArith, hty] at ha
  case Lpar => simp [isArith, hty] at ha
  case Rpar => simp [isArith, hty] at ha
  case Invalid => simp [isArith, hty] at ha

/-- Executing a nonempty all-arithmetic remainder of the program from
any state, with enough fuel, the simulated pointer in bounds at every
prefix and the simulated cells inside the `i32` range at every prefix,
succeeds and produces exactly the spec simulation of that remainder,
leaving `ip` one past the end and everything else untouched. -/
theorem runLoop_arith_aux (ts : List Token) :
    ∀ (rest : List Token) (f : Nat) (st : St),
    ts.drop st.ip = rest → rest ≠ [] → rest.length ≤ f →
    (∀ t ∈ rest, isArith t.typ = true) →
    (∀ k, k ≤ rest.length →
      0 ≤ (specRun ((rest.take k).map Token.typ) (st.tape, (st.dp : Int))).2 ∧
      (specRun ((rest.take k).map Token.typ) (st.tape, (st.dp : Int))).2 < st.tape.length) →
    (∀ k, k ≤ rest.length →
      ∀ x ∈ (specRun ((rest.take k).map Token.typ) (st.tape, (st.dp : Int))).1,
        i32Min ≤ x ∧ x ≤ i32Max) →
    ∃ st', runLoop f ts st = .ok st' ∧
      st'.tape = (specRun (rest.map Token.typ) (st.tape, (st.dp : Int))).1 ∧
      (st'.dp : Int) = (specRun (rest.map Token.typ) (st.tape, (st.dp : Int))).2 ∧
      st'.ip = ts.length ∧ st'.lastOpeningPos = st.lastOpeningPos ∧
      st'.input = st.input ∧ st'.output = st.output := by
  intro rest
  induction rest with
  | nil => intro f st _ hne; exact absurd rfl hne
  | cons t rest ih =>
    intro f st hdrop hne hf ha hbound hcellb
    have hip : st.ip < ts.length := by
      by_contra h
      rw [List.drop_eq_nil_iff.mpr (Nat.le_of_not_lt h)] at hdrop
      exact List.cons_ne_nil t rest hdrop.symm
    have hts : ts[st.ip]? = some t := by
      have h0 : (ts.drop st.ip)[0]? = some t := by rw [hdrop]; simp
      rwa [List.getElem?_drop, Nat.add_zero] at h0
    have hdrop' : ts.drop (st.ip + 1) = rest := by
      have h1 : (ts.drop st.ip).drop 1 = ts.drop (st.ip + 1) := List.drop_drop 1 st.ip ts
      rw [← h1, hdrop, List.drop_one, List.tail_cons]
    have h0 := hbound 0 (Nat.zero_le _)
    simp only [List.take_zero, List.map_nil, specRun, List.foldl_nil] at h0
    have hdp : st.dp < st.tape.length := by exact_mod_cast h0.2
    have hleft : t.typ = TokenType.Left → st.dp ≠ 0 := by
      intro hty hdp0
      have h1 := (hbound 1 (by simp)).1
      simp only [List.take_succ_cons, List.take_zero, List.map_cons, List.map_nil,
        specRun, List.foldl_cons, List.foldl_nil, hty, specStep] at h1
      omega
    have hcells1 : ∀ x ∈ (specStep t.typ (st.tape, (st.dp : Int))).1,
        i32Min ≤ x ∧ x ≤ i32Max := by
      intro x hx
      have h1 := hcellb 1 (by simp)
      simp only [List.take_succ_cons, List.take_zero, List.map_cons, List.map_nil,
        specRun, List.foldl_cons, List.foldl_nil] at h1
      exact h1 x hx
    obtain ⟨tape', dp', hstep, htape', hdp'⟩ :=
      step_arith_bridge ts st t hts (ha t (List.mem_cons_self t rest)) hdp hleft hcells1
    have hpair : ((tape', (dp' : Int)) : List Int × Int)
        = specStep t.typ (st.tape, (st.dp : Int)) := by
      rw [htape', hdp']
    have hlen : tape'.length = st.tape.length := by
      rw [htape']
      exact specStep_length t.typ (st.tape, (st.dp : Int))
    cases f with
    | zero =>
      exact absurd hf (by simp)
    | succ f =>
      by_cases hend : ts.length ≤ st.ip + 1
      · have hrest : rest = [] := by
          rw [← hdrop']
          exact List.drop_eq_nil_iff.mpr hend
        subst hrest
        refine ⟨⟨tape', dp', st.ip + 1, st.lastOpeningPos, st.input, st.output⟩, ?_, ?_, ?_, ?_, rfl, rfl, rfl⟩
        · simp only [runLoop, hstep, fallThrough, if_pos hend]
        · simpa [specRun] using htape'
        · simpa [specRun] using hdp'
        · exact Nat.le_antisymm hip hend
      · have hne' : rest ≠ [] := by
          intro h
          rw [h] at hdrop'
          exact hend (List.drop_eq_nil_iff.mp hdrop')
        have hf' : rest.length ≤ f := by
          simp only [List.length_cons] at hf
          omega
        have ha' : ∀ u ∈ rest, isArith u.typ = true :=
          fun u hu => ha u (List.mem_cons_of_mem t hu)
        have hb' : ∀ k, k ≤ rest.length →
            0 ≤ (specRun ((rest.take k).map Token.typ) (tape', (dp' : Int))).2 ∧
            (specRun ((rest.take k).map Token.typ) (tape', (dp' : Int))).2 < tape'.length := by
          intro k hk
          have hb := hbound (k + 1) (by simpa using Nat.succ_le_succ hk)
          simp only [List.take_succ_cons, List.map_cons, specRun_cons] at hb
          rw [← hpair] at hb
          simpa [hlen] using hb
        have hcb' : ∀ k, k ≤ rest.length →
            ∀ x ∈ (specRun ((rest.take k).map Token.typ) (tape', (dp' : Int))).1,
              i32Min ≤ x ∧ x ≤ i32Max := by
          intro k hk
          have hcb := hcellb (k + 1) (by simpa using Nat.succ_le_succ hk)
          simp only [List.take_succ_cons, List.map_cons, specRun_cons] at hcb
          rw [← hpair] at hcb
          exact hcb
        obtain ⟨st', hrun, h1, h2, h3, h4, h5, h6⟩ :=
          ih f ⟨tape', dp', st.ip + 1, st.lastOpeningPos, st.input, st.output⟩ hdrop' hne' hf' ha' hb' hcb'
        have h1' : st'.tape = (specRun (rest.map Token.typ) (tape', (dp' : Int))).1 := h1
        have h2' : (st'.dp : Int) = (specRun (rest.map Token.typ) (tape', (dp' : Int))).2 := h2
        have h4' : st'.lastOpeningPos = st.lastOpeningPos := h4
        have h5' : st'.input = st.input := h5
        have h6' : st'.output = st.output := h6
        refine ⟨st', ?_, ?_, ?_, h3, h4', h5', h6'⟩
        · rw [← hrun]
          simp only [runLoop, hstep, fallThrough, if_neg hend]
        · rw [h1', hpair]
          simp only [List.map_cons, specRun_cons]
        · rw [h2', hpair]
          simp only [List.map_cons, specRun_cons]

/-- C7 (amended): for every nonempty token sequence of only `+`, `-`,
`<`, `>` tokens, if the spec-simulated data pointer stays within
`[0, capacity)` after every prefix and every simulated cell stays
within the `i32` range after every prefix (so the debug-profile `i32`
overflow check never fires), execution succeeds, the final tape is the
direct arithmetic simulation of the operations applied in order, and
the final data pointer is the net count of `>` minus `<`. -/
theorem arith_only_simulation (ts : List Token) (capacity : Nat)
    (input : List Nat) (f : Nat)
    (hne : ts ≠ []) (hf : ts.length ≤ f)
    (ha : ∀ t ∈ ts, isArith t.typ = true)
    (hbound : ∀ k, k ≤ ts.length →
      0 ≤ (specRun ((ts.take k).map Token.typ) (List.replicate capacity 0, 0)).2 ∧
      (specRun ((ts.take k).map Token.typ) (List.replicate capacity 0, 0)).2 < capacity)
    (hcell : ∀ k, k ≤ ts.length →
      ∀ x ∈ (specRun ((ts.take k).map Token.typ) (List.replicate capacity 0, 0)).1,
        i32Min ≤ x ∧ x ≤ i32Max) :
    ∃ st', parse f ts capacity input = .ok st' ∧
      st'.tape = (specRun (ts.map Token.typ) (List.replicate capacity 0, 0)).1 ∧
      (st'.dp : Int) = netMoves (ts.map Token.typ) ∧
      st'.ip = ts.length ∧ st'.input = input ∧ st'.output = [] := by
  have hb : ∀ k, k ≤ ts.length →
      0 ≤ (specRun ((ts.take k).map Token.typ)
        ((initSt capacity input).tape, ((initSt capacity input).dp : Int))).2 ∧
      (specRun ((ts.take k).map Token.typ)
        ((initSt capacity input).tape, ((initSt capacity input).dp : Int))).2
        < (initSt capacity input).tape.length := by
    intro k hk
    have := hbound k hk
    simpa [initSt] using this
  have hc : ∀ k, k ≤ ts.length →
      ∀ x ∈ (specRun ((ts.take k).map Token.typ)
        ((initSt capacity input).tape, ((initSt capacity input).dp : Int))).1,
        i32Min ≤ x ∧ x ≤ i32Max := by
    intro k hk
    have := hcell k hk
    simpa [initSt] using this
  obtain ⟨st', hrun, h1, h2, h3, h4, h5, h6⟩ :=
    runLoop_arith_aux ts ts f (initSt capacity input) (by simp [initSt]) hne hf ha hb hc
  refine ⟨st', hrun, ?_, ?_, h3, h5, h6⟩
  · simpa [initSt] using h1
  · rw [h2]
    simp [initSt, specRun_dp]

/-- Witness for C7's amended theorem at the program `"+>++"` with
capacity 2: the run succeeds with tape `[1, 2]` and `dp = 1`. -/
theorem arith_only_simulation_witness :
    ∃ st', parse 4 [⟨TokenType.Plus, 0⟩, ⟨TokenType.Right, 1⟩, ⟨TokenType.Plus, 2⟩,
        ⟨TokenType.Plus, 3⟩] 2 [] = .ok st' ∧
      st'.tape = (specRun ([⟨TokenType.Plus, 0⟩, ⟨TokenType.Right, 1⟩, ⟨TokenType.Plus, 2⟩,
        (⟨TokenType.Plus, 3⟩ : Token)].map Token.typ) (List.replicate 2 0, 0)).1 ∧
      (st'.dp : Int) = netMoves ([⟨TokenType.Plus, 0⟩, ⟨TokenType.Right, 1⟩, ⟨TokenType.Plus, 2⟩,
        (⟨TokenType.Plus, 3⟩ : Token)].map Token.typ) ∧
      st'.ip = 4 ∧ st'.input = [] ∧ st'.output = [] :=
  arith_only_simulation [⟨TokenType.Plus, 0⟩, ⟨TokenType.Right, 1⟩, ⟨TokenType.Plus, 2⟩,
    ⟨TokenType.Plus, 3⟩] 2 [] 4 (by decide) (by decide) (by decide) (by decide) (by decide)

end Rustfuck
